import Mathlib

/-!
# Verification of the `broke` flat-file event log

A shallow embedding of `broke/__init__.py`: the on-disk block/message
framing, the CRC-32 checksum, the writer's buffered `store` /
two-phase `commit` / `rollback` protocol, the block scanner, the
message codec and the polling follow driver, together with theorems
settling the specification claims.

Bytes are modelled as `Nat` (values `< 256` where it matters), byte
strings as `List Nat`, and machine integers as `Nat` with explicit
`% 2^w`.  Fallible operations return `Option`/`Except`-style results,
and raised Python exceptions are explicit error values.
-/

/-! ## CRC-32 (`zlib.crc32`, used by `_checksum`)

The standard reflected CRC-32 with polynomial `0xEDB88320`, written
bit by bit exactly as zlib computes it: the running value starts at
`0xFFFFFFFF`, each input byte is xor-ed into the low bits and followed
by eight shift/xor steps, and the final value is complemented. -/

def crcPoly : Nat := 0xEDB88320

def crcBitStep (c : Nat) : Nat :=
  if c % 2 = 1 then (c / 2) ^^^ crcPoly else c / 2

def crc32Update (c b : Nat) : Nat := crcBitStep^[8] (c ^^^ b)

/-- `_checksum(bytes)` = `zlib.crc32(bytes)`. -/
def crc32 (data : List Nat) : Nat :=
  (data.foldl crc32Update 0xFFFFFFFF) ^^^ 0xFFFFFFFF

theorem crcBitStep_lt {c : Nat} (h : c < 2 ^ 32) : crcBitStep c < 2 ^ 32 := by
  unfold crcBitStep
  split
  · exact Nat.xor_lt_two_pow (by omega) (by norm_num [crcPoly])
  · omega

theorem crcBitStep_inj {c1 c2 : Nat} (h1 : c1 < 2 ^ 32) (h2 : c2 < 2 ^ 32)
    (he : crcBitStep c1 = crcBitStep c2) : c1 = c2 := by
  unfold crcBitStep at he
  have hp31 : crcPoly.testBit 31 = true := by decide
  by_cases o1 : c1 % 2 = 1 <;> by_cases o2 : c2 % 2 = 1
  · rw [if_pos o1, if_pos o2] at he
    have := Nat.xor_left_inj.mp he
    omega
  · rw [if_pos o1, if_neg o2] at he
    have hb := congrArg (fun x => Nat.testBit x 31) he
    simp only [Nat.testBit_xor] at hb
    rw [Nat.testBit_lt_two_pow (x := c1 / 2) (by omega),
        Nat.testBit_lt_two_pow (x := c2 / 2) (by omega), hp31] at hb
    simp at hb
  · rw [if_neg o1, if_pos o2] at he
    have hb := congrArg (fun x => Nat.testBit x 31) he
    simp only [Nat.testBit_xor] at hb
    rw [Nat.testBit_lt_two_pow (x := c1 / 2) (by omega),
        Nat.testBit_lt_two_pow (x := c2 / 2) (by omega), hp31] at hb
    simp at hb
  · rw [if_neg o1, if_neg o2] at he
    omega

theorem crcBitStep_iter_lt (n : Nat) {c : Nat} (h : c < 2 ^ 32) :
    crcBitStep^[n] c < 2 ^ 32 := by
  induction n generalizing c with
  | zero => simpa using h
  | succ k ih =>
    rw [Function.iterate_succ_apply]
    exact ih (crcBitStep_lt h)

theorem crcBitStep_iter_inj (n : Nat) {c1 c2 : Nat} (h1 : c1 < 2 ^ 32) (h2 : c2 < 2 ^ 32)
    (he : crcBitStep^[n] c1 = crcBitStep^[n] c2) : c1 = c2 := by
  induction n generalizing c1 c2 with
  | zero => simpa using he
  | succ k ih =>
    rw [Function.iterate_succ_apply, Function.iterate_succ_apply] at he
    exact crcBitStep_inj h1 h2 (ih (crcBitStep_lt h1) (crcBitStep_lt h2) he)

theorem crc32Update_lt {c b : Nat} (hc : c < 2 ^ 32) (hb : b < 256) :
    crc32Update c b < 2 ^ 32 :=
  crcBitStep_iter_lt 8 (Nat.xor_lt_two_pow hc (by omega))

theorem crc32Update_inj_state {c1 c2 b : Nat} (h1 : c1 < 2 ^ 32) (h2 : c2 < 2 ^ 32)
    (hb : b < 256) (hne : c1 ≠ c2) : crc32Update c1 b ≠ crc32Update c2 b := by
  intro he
  have hx1 : c1 ^^^ b < 2 ^ 32 := Nat.xor_lt_two_pow h1 (by omega)
  have hx2 : c2 ^^^ b < 2 ^ 32 := Nat.xor_lt_two_pow h2 (by omega)
  exact hne (Nat.xor_left_inj.mp (crcBitStep_iter_inj 8 hx1 hx2 he))

theorem crc32Update_inj_byte {c b1 b2 : Nat} (hc : c < 2 ^ 32) (hb1 : b1 < 256)
    (hb2 : b2 < 256) (hne : b1 ≠ b2) : crc32Update c b1 ≠ crc32Update c b2 := by
  intro he
  have hx1 : c ^^^ b1 < 2 ^ 32 := Nat.xor_lt_two_pow hc (by omega)
  have hx2 : c ^^^ b2 < 2 ^ 32 := Nat.xor_lt_two_pow hc (by omega)
  exact hne (Nat.xor_right_inj.mp (crcBitStep_iter_inj 8 hx1 hx2 he))

theorem crcFold_lt {l : List Nat} {c : Nat} (hc : c < 2 ^ 32) (hl : ∀ b ∈ l, b < 256) :
    l.foldl crc32Update c < 2 ^ 32 := by
  induction l generalizing c with
  | nil => simpa using hc
  | cons x xs ih =>
    simp only [List.foldl_cons]
    exact ih (crc32Update_lt hc (hl x (by simp))) (fun b hb => hl b (by simp [hb]))

theorem crcFold_inj {l : List Nat} {c1 c2 : Nat} (h1 : c1 < 2 ^ 32) (h2 : c2 < 2 ^ 32)
    (hl : ∀ b ∈ l, b < 256) (hne : c1 ≠ c2) :
    l.foldl crc32Update c1 ≠ l.foldl crc32Update c2 := by
  induction l generalizing c1 c2 with
  | nil => simpa using hne
  | cons x xs ih =>
    simp only [List.foldl_cons]
    have hx : x < 256 := hl x (by simp)
    exact ih (crc32Update_lt h1 hx) (crc32Update_lt h2 hx)
      (fun b hb => hl b (by simp [hb])) (crc32Update_inj_state h1 h2 hx hne)

theorem crc32_lt {l : List Nat} (hl : ∀ b ∈ l, b < 256) : crc32 l < 2 ^ 32 :=
  Nat.xor_lt_two_pow (crcFold_lt (by norm_num) hl) (by norm_num)

/-- Flipping a single byte of the input always changes the CRC-32. -/
theorem crc32_flip_ne {p : List Nat} {i v : Nat} (hp : ∀ b ∈ p, b < 256)
    (hi : i < p.length) (hv : v < 256) (hne : v ≠ p.getD i 0) :
    crc32 (p.set i v) ≠ crc32 p := by
  have hgetD : p.getD i 0 = p.get ⟨i, hi⟩ := by
    simp [List.getD_eq_getElem?_getD, List.getElem?_eq_getElem hi]
  have hsplit : p = p.take i ++ p.get ⟨i, hi⟩ :: p.drop (i + 1) := by
    conv_lhs => rw [← List.take_append_drop i p]
    rw [List.drop_eq_getElem_cons hi]
    rfl
  have hset : p.set i v = p.take i ++ v :: p.drop (i + 1) :=
    List.set_eq_take_cons_drop v hi
  intro he
  unfold crc32 at he
  have hfold := Nat.xor_left_inj.mp he
  rw [hset] at hfold
  conv_rhs at hfold => rw [hsplit]
  rw [List.foldl_append, List.foldl_append, List.foldl_cons, List.foldl_cons] at hfold
  have hs : (p.take i).foldl crc32Update 0xFFFFFFFF < 2 ^ 32 :=
    crcFold_lt (by norm_num) (fun b hb => hp b (List.mem_of_mem_take hb))
  have hpi : p.get ⟨i, hi⟩ < 256 := hp _ (List.get_mem p i hi)
  have hstep : crc32Update ((p.take i).foldl crc32Update 0xFFFFFFFF) v ≠
      crc32Update ((p.take i).foldl crc32Update 0xFFFFFFFF) (p.get ⟨i, hi⟩) :=
    crc32Update_inj_byte hs hv hpi (by rw [hgetD] at hne; exact hne)
  exact crcFold_inj (crc32Update_lt hs hv) (crc32Update_lt hs hpi)
    (fun b hb => hp b (List.mem_of_mem_drop hb)) hstep hfold

/-! ## Header codec (`BlockHeader`, `MessageHeader`)

`BlockHeader` (36 bytes, little-endian): magic `b"BrokeHeader"`,
`length:u32`, `checksum:u32`, `committed` flag byte, 16 reserved zero
bytes.  `MessageHeader` (84 bytes): 8 reserved zero bytes,
`length:u32`, `timestamp:u64`, 64-byte null-padded ASCII topic.
Building a field out of range (or a topic that does not fit) raises in
`construct`, so the build functions return `Option`; parsing validates
the magic and reserved bytes and returns `none` where `construct`
would raise. -/

def blockHeaderBytes (len chk : Nat) (committed : Bool) : List Nat :=
  66 :: 114 :: 111 :: 107 :: 101 :: 72 :: 101 :: 97 :: 100 :: 101 :: 114 ::
  (len % 256) :: (len / 256 % 256) :: (len / 65536 % 256) :: (len / 16777216 % 256) ::
  (chk % 256) :: (chk / 256 % 256) :: (chk / 65536 % 256) :: (chk / 16777216 % 256) ::
  (if committed then 1 else 0) ::
  0 :: 0 :: 0 :: 0 :: 0 :: 0 :: 0 :: 0 :: 0 :: 0 :: 0 :: 0 :: 0 :: 0 :: 0 :: 0 :: []

/-- `BlockHeader.build`: `construct` raises on out-of-range fields. -/
def blockHeaderBuild (len chk : Nat) (committed : Bool) : Option (List Nat) :=
  if len < 2 ^ 32 ∧ chk < 2 ^ 32 then some (blockHeaderBytes len chk committed) else none

/-- `BlockHeader.parse`: validates the magic and the reserved zero
bytes; the `committed` flag byte maps `1` to `true` and anything else
to the `Flag` default `false`.  `none` models a `construct` parse
error (bad magic / short data). -/
def blockHeaderParse : List Nat → Option (Nat × Nat × Bool)
  | m0 :: m1 :: m2 :: m3 :: m4 :: m5 :: m6 :: m7 :: m8 :: m9 :: m10 ::
    x1 :: x2 :: x3 :: x4 :: y1 :: y2 :: y3 :: y4 :: fl :: rest =>
    if m0 = 66 ∧ m1 = 114 ∧ m2 = 111 ∧ m3 = 107 ∧ m4 = 101 ∧ m5 = 72 ∧ m6 = 101 ∧
       m7 = 97 ∧ m8 = 100 ∧ m9 = 101 ∧ m10 = 114 ∧ rest = List.replicate 16 0 then
      some (x1 + 256 * x2 + 65536 * x3 + 16777216 * x4,
            y1 + 256 * y2 + 65536 * y3 + 16777216 * y4,
            fl == 1)
    else none
  | _ => none

theorem blockHeaderBytes_length (len chk : Nat) (cm : Bool) :
    (blockHeaderBytes len chk cm).length = 36 := rfl

theorem blockHeaderParse_bytes (len chk : Nat) (cm : Bool)
    (hl : len < 2 ^ 32) (hc : chk < 2 ^ 32) :
    blockHeaderParse (blockHeaderBytes len chk cm) = some (len, chk, cm) := by
  cases cm <;> simp only [blockHeaderBytes, blockHeaderParse, Option.some.injEq,
      Prod.mk.injEq, if_pos, and_true, List.cons.injEq] <;>
    simp only [show List.replicate 16 (0 : Nat) = 0 :: 0 :: 0 :: 0 :: 0 :: 0 :: 0 :: 0 ::
      0 :: 0 :: 0 :: 0 :: 0 :: 0 :: 0 :: 0 :: [] from rfl] <;>
    norm_num <;> refine ⟨by omega, by omega⟩

def rstripNulls (l : List Nat) : List Nat := (l.reverse.dropWhile (· == 0)).reverse

def messageHeaderBytes (len ts : Nat) (topic : List Nat) : List Nat :=
  [0, 0, 0, 0, 0, 0, 0, 0,
   len % 256, len / 256 % 256, len / 65536 % 256, len / 16777216 % 256,
   ts % 256, ts / 2 ^ 8 % 256, ts / 2 ^ 16 % 256, ts / 2 ^ 24 % 256,
   ts / 2 ^ 32 % 256, ts / 2 ^ 40 % 256, ts / 2 ^ 48 % 256, ts / 2 ^ 56 % 256] ++
  topic ++ List.replicate (64 - topic.length) 0

/-- `MessageHeader.build`: `construct` 2.5.2's
`String("topic", 64, padchar="\x00", encoding="ascii")` wraps the
field in `PaddedStringAdapter`, whose `_encode` right-pads the topic
string with `"\x00"` to 64 characters and, when it is longer than 64,
silently **trims** it to its first 64 characters (`trimdir="right"`);
the result is then encoded as ASCII (raises `UnicodeEncodeError` for
a code point `≥ 128` among the kept characters) and written as a
fixed 64-byte field.  `length`/`timestamp` raise when out of range.
An over-long topic therefore builds successfully, truncated. -/
def messageHeaderBuild (len ts : Nat) (topic : List Nat) : Option (List Nat) :=
  if len < 2 ^ 32 ∧ ts < 2 ^ 64 ∧ (∀ ch ∈ topic.take 64, ch < 128) then
    some (messageHeaderBytes len ts (topic.take 64))
  else none

/-- `MessageHeader.parse`: validates the 8 reserved zero bytes,
decodes the 64-byte topic as ASCII (raises on a byte `≥ 128`) and
strips trailing null padding. -/
def messageHeaderParse : List Nat → Option (Nat × Nat × List Nat)
  | 0 :: 0 :: 0 :: 0 :: 0 :: 0 :: 0 :: 0 ::
    a :: b :: c :: d ::
    t0 :: t1 :: t2 :: t3 :: t4 :: t5 :: t6 :: t7 :: topicBytes =>
    if topicBytes.length = 64 ∧ ∀ ch ∈ topicBytes, ch < 128 then
      some (a + 256 * b + 65536 * c + 16777216 * d,
            t0 + 2 ^ 8 * t1 + 2 ^ 16 * t2 + 2 ^ 24 * t3 +
              2 ^ 32 * t4 + 2 ^ 40 * t5 + 2 ^ 48 * t6 + 2 ^ 56 * t7,
            rstripNulls topicBytes)
    else none
  | _ => none

theorem messageHeaderBytes_length (len ts : Nat) (topic : List Nat)
    (h : topic.length ≤ 64) : (messageHeaderBytes len ts topic).length = 84 := by
  simp [messageHeaderBytes]
  omega

theorem dropWhile_replicate_zero (k : Nat) (x : List Nat) :
    List.dropWhile (· == 0) (List.replicate k 0 ++ x) = List.dropWhile (· == 0) x := by
  induction k with
  | zero => simp
  | succ n ih => simp [List.replicate_succ, List.dropWhile, ih]

theorem rstripNulls_pad (topic : List Nat) (k : Nat) :
    rstripNulls (topic ++ List.replicate k 0) = rstripNulls topic := by
  unfold rstripNulls
  rw [List.reverse_append, List.reverse_replicate, dropWhile_replicate_zero]

theorem messageHeaderParse_bytes (len ts : Nat) (topic : List Nat)
    (hl : len < 2 ^ 32) (ht : ts < 2 ^ 64) (ha : ∀ ch ∈ topic, ch < 128)
    (hn : topic.length ≤ 64) :
    messageHeaderParse (messageHeaderBytes len ts topic) =
      some (len, ts, rstripNulls topic) := by
  have hcond : (topic ++ List.replicate (64 - topic.length) 0).length = 64 ∧
      ∀ ch ∈ topic ++ List.replicate (64 - topic.length) 0, ch < 128 := by
    constructor
    · simp; omega
    · intro ch hch
      rcases List.mem_append.mp hch with h | h
      · exact ha ch h
      · have := List.eq_of_mem_replicate h
        omega
  simp only [messageHeaderBytes, List.cons_append, List.nil_append, messageHeaderParse,
    if_pos hcond, Option.some.injEq, Prod.mk.injEq]
  rw [rstripNulls_pad]
  refine ⟨by omega, by omega, rfl⟩

/-! ## Data model: messages, Python values, the writer

`Message` is the `namedtuple("Message", ["topic", "time", "payload"])`.
A topic is a string of character codes, a payload a byte string.

`store` type-checks its arguments dynamically (`isinstance`), so its
arguments are modelled as dynamic Python values.  The writer's state
is the sequence of uncompressed bytes written into its gzip stream:
`dirty` is `buffer.tell() > 0`, i.e. whether any bytes were written. -/

structure Message where
  topic : List Nat
  time : Nat
  payload : List Nat
deriving DecidableEq

inductive PyVal where
  | bytes (data : List Nat)
  | str (chars : List Nat)
  | other
deriving DecidableEq

def PyVal.isBytes : PyVal → Bool
  | .bytes _ => true
  | _ => false

structure BrokeWriter where
  buffer : List Nat
deriving DecidableEq

/-- `BrokeWriter.dirty` = `self.buffer.tell() > 0`. -/
def BrokeWriter.dirty (w : BrokeWriter) : Bool := 0 < w.buffer.length

inductive StoreError where
  | typeRejected    -- `IOError` from the isinstance checks
  | buildRejected   -- raised inside `MessageHeader.build` (field/encode error)
deriving DecidableEq

/-- `BrokeWriter.store(topic, payload)`.  Python semantics: when an
exception is raised the writer object is left as it was, so the
result carries the observable writer together with the raised error.
The header is built (and can raise) before anything is written to the
buffer; on success the framed header plus payload are appended. -/
def storeRun (w : BrokeWriter) (topic payload : PyVal) (now : Nat) :
    BrokeWriter × Option StoreError :=
  match payload with
  | .bytes p =>
    match topic with
    | .str t =>
      match messageHeaderBuild p.length now t with
      | some hdr => (⟨w.buffer ++ hdr ++ p⟩, none)
      | none => (w, some .buildRejected)
    | _ => (w, some .typeRejected)
  | _ => (w, some .typeRejected)

/-- `rollback()`: a fresh buffer and compression state. -/
def rollback (_w : BrokeWriter) : BrokeWriter := ⟨[]⟩

/-- Stores a list of `(topic, time, payload)` messages in order,
stopping at the first raised error. -/
def storeAll : BrokeWriter → List (List Nat × Nat × List Nat) → BrokeWriter × Option StoreError
  | w, [] => (w, none)
  | w, (t, now, p) :: rest =>
    match storeRun w (.str t) (.bytes p) now with
    | (w', none) => storeAll w' rest
    | (w', some e) => (w', some e)

/-! ## Compression (`gzip.GzipFile` over an in-memory buffer)

The program uses gzip only as an invertible byte-stream codec: the
writer compresses the concatenated frames, the reader decompresses a
block before decoding messages.  The embedding abstracts it as a codec
with the three properties of gzip the program relies on: a gzip stream
decompresses back to its input, is never empty, and is a byte string. -/

structure Codec where
  compress : List Nat → List Nat
  decompress : List Nat → Option (List Nat)
  decompress_compress : ∀ x, decompress (compress x) = some x
  compress_ne_nil : ∀ x, x ≠ [] → compress x ≠ []
  compress_bytes : ∀ x, (∀ b ∈ x, b < 256) → ∀ b ∈ compress x, b < 256

/-- A concrete instantiation used to evaluate the theorems on
concrete inputs. -/
def idCodec : Codec where
  compress := id
  decompress := some
  decompress_compress := fun _ => rfl
  compress_ne_nil := fun _ h => h
  compress_bytes := fun _ h => h

/-! ## `BrokeWriter.commit`

The dirty path: finalize the compression, **reset the buffer**
(`rollback`), compute the checksum, build the `committed=False`
header; then under the exclusive lock: seek to end-of-file (recording
`start`), write the uncommitted header, write the compressed payload,
seek back to `start`, write the `committed=True` header, and flush
once.  If anything in the `try` block raises, truncate back to
`start` (best effort) and re-raise.

The environment's failures are injected through `fault` (which write
raises, or the lock timing out) and `truncateFails` (the recovery
truncate itself raising, which the code prints and swallows).  The
result records the resulting writer, the file contents, the trace of
file operations performed, the propagated error, and printed output. -/

inductive FileOp where
  | seekEnd
  | write (data : List Nat)
  | seekTo (pos : Nat)
  | flush
  | truncate (pos : Nat)
deriving DecidableEq

inductive CommitFault where
  | onLock | onWrite1 | onWrite2 | onWrite3 | onFlush
deriving DecidableEq

inductive CommitError where
  | lockTimeout   -- `TimeoutError` from `lock`
  | buildFailed   -- raised by `BlockHeader.build`
  | writeFailed   -- the injected write-path exception, re-raised
deriving DecidableEq

structure CommitResult where
  writer : BrokeWriter
  file : List Nat
  ops : List FileOp
  error : Option CommitError
  printed : List String
deriving DecidableEq

/-- The `except` clause: truncate the file back to `start`
(best effort) and re-raise the original error. -/
def commitRecover (w : BrokeWriter) (file : List Nat) (start : Nat) (ops : List FileOp)
    (truncateFails : Bool) : CommitResult :=
  if truncateFails then
    ⟨w, file, ops, some .writeFailed, ["Could not truncate file"]⟩
  else
    ⟨w, file.take start, ops ++ [.truncate start], some .writeFailed, []⟩

def commit (c : Codec) (w : BrokeWriter) (file : List Nat) (fault : Option CommitFault)
    (truncateFails : Bool) : CommitResult :=
  if w.dirty = false then ⟨w, file, [], none, []⟩
  else
    let compressed := c.compress w.buffer
    let w' := rollback w
    let chk := crc32 compressed
    match blockHeaderBuild compressed.length chk false with
    | none => ⟨w', file, [], some .buildFailed, []⟩
    | some hdrF =>
      if fault = some .onLock then ⟨w', file, [], some .lockTimeout, []⟩
      else
        let start := file.length
        if fault = some .onWrite1 then
          commitRecover w' file start [.seekEnd] truncateFails
        else
          let f1 := file ++ hdrF
          if fault = some .onWrite2 then
            commitRecover w' f1 start [.seekEnd, .write hdrF] truncateFails
          else
            let f2 := f1 ++ compressed
            let hdrT := blockHeaderBytes compressed.length chk true
            if fault = some .onWrite3 then
              commitRecover w' f2 start
                [.seekEnd, .write hdrF, .write compressed, .seekTo start] truncateFails
            else
              let f3 := f2.take start ++ hdrT ++ f2.drop (start + 36)
              if fault = some .onFlush then
                commitRecover w' f3 start
                  [.seekEnd, .write hdrF, .write compressed, .seekTo start, .write hdrT]
                  truncateFails
              else
                ⟨w', f3,
                 [.seekEnd, .write hdrF, .write compressed, .seekTo start,
                  .write hdrT, .flush],
                 none, []⟩

/-- A fault-free dirty commit appends exactly one block: the
`committed=True` header followed by the compressed buffer. -/
theorem commit_clean (c : Codec) (w : BrokeWriter) (file : List Nat) (tf : Bool)
    (hd : w.dirty = true) (hlen : (c.compress w.buffer).length < 2 ^ 32)
    (hchk : crc32 (c.compress w.buffer) < 2 ^ 32) :
    commit c w file none tf =
      ⟨⟨[]⟩,
       file ++ blockHeaderBytes (c.compress w.buffer).length (crc32 (c.compress w.buffer)) true
            ++ c.compress w.buffer,
       [.seekEnd, .write (blockHeaderBytes (c.compress w.buffer).length
            (crc32 (c.compress w.buffer)) false),
        .write (c.compress w.buffer), .seekTo file.length,
        .write (blockHeaderBytes (c.compress w.buffer).length
            (crc32 (c.compress w.buffer)) true), .flush],
       none, []⟩ := by
  have hbuild : blockHeaderBuild (c.compress w.buffer).length
      (crc32 (c.compress w.buffer)) false =
      some (blockHeaderBytes (c.compress w.buffer).length
        (crc32 (c.compress w.buffer)) false) := by
    unfold blockHeaderBuild
    rw [if_pos ⟨hlen, hchk⟩]
  unfold commit
  rw [hd]
  simp only [Bool.true_eq_false, if_false, reduceCtorEq, reduceIte, hbuild, rollback]
  have htake : (file ++ (blockHeaderBytes (c.compress w.buffer).length
      (crc32 (c.compress w.buffer)) false ++ c.compress w.buffer)).take file.length
      = file := List.take_left' rfl
  have hdrop : (file ++ (blockHeaderBytes (c.compress w.buffer).length
      (crc32 (c.compress w.buffer)) false ++ c.compress w.buffer)).drop
      (file.length + 36) = c.compress w.buffer := by
    rw [← List.append_assoc]
    exact List.drop_left' (by simp [blockHeaderBytes_length])
  simp only [List.append_assoc] at htake hdrop ⊢
  rw [htake, hdrop]

/-! ## Block scanner (`iter_blocks`)

`iter_blocks(fp)` reads a 36-byte header; an empty read ends the
scan; a `construct` parse failure propagates; `length == 0` skips the
block; `committed == false` seeks `length` bytes forward without
reading the payload; otherwise the payload is read fully (a short
read raises), its checksum verified (a mismatch raises), and the
compressed block bytes are yielded.

The scan result records the yielded blocks in order, the terminal
error if the generator raised, and the number of bytes of the input
the file position advanced over.  The recursion is written with a
fuel parameter (any fuel above the input length is enough) so that it
is structural. -/

inductive ScanError where
  | formatError      -- `construct` parse failure (bad magic / short header)
  | shortReadError   -- `read_fully` raising `IOError("short read")`
  | checksumError    -- `IOError("checksum for block invalid")`
  | decompressError  -- `gzip` failing to decompress a block
deriving DecidableEq

structure ScanOut where
  blocks : List (List Nat)
  err : Option ScanError
  consumed : Nat
deriving DecidableEq

def scanGo : Nat → List Nat → ScanOut
  | 0, _ => ⟨[], none, 0⟩
  | fuel + 1, l =>
    if l = [] then ⟨[], none, 0⟩
    else
      match blockHeaderParse (l.take 36) with
      | none => ⟨[], some .formatError, 0⟩
      | some (len, chk, committed) =>
        if len = 0 then
          let r := scanGo fuel (l.drop 36)
          ⟨r.blocks, r.err, 36 + r.consumed⟩
        else if committed = false then
          let r := scanGo fuel (l.drop (36 + len))
          ⟨r.blocks, r.err, 36 + len + r.consumed⟩
        else
          let payload := (l.drop 36).take len
          if payload.length ≠ len then ⟨[], some .shortReadError, 0⟩
          else if crc32 payload ≠ chk then ⟨[], some .checksumError, 0⟩
          else
            let r := scanGo fuel (l.drop (36 + len))
            ⟨payload :: r.blocks, r.err, 36 + len + r.consumed⟩

def iterBlocksAcc (l : List Nat) : ScanOut := scanGo (l.length + 1) l

theorem scanGo_fuel (f : Nat) : ∀ (g : Nat) (l : List Nat),
    l.length < f → l.length < g → scanGo f l = scanGo g l := by
  induction f with
  | zero => intro g l hf; omega
  | succ f ih =>
    intro g l hf hg
    cases g with
    | zero => omega
    | succ g =>
      by_cases hnil : l = []
      · simp [scanGo, hnil]
      · have hpos : 0 < l.length := List.length_pos.mpr hnil
        simp only [scanGo, if_neg hnil]
        cases hp : blockHeaderParse (l.take 36) with
        | none => rfl
        | some v =>
          obtain ⟨len, chk, committed⟩ := v
          have hd36 : (l.drop 36).length < f := by simp; omega
          have hd36g : (l.drop 36).length < g := by simp; omega
          by_cases hlen : len = 0
          · simp only [if_pos hlen, ih g (l.drop 36) hd36 hd36g]
          · have hdl : (l.drop (36 + len)).length < f := by simp; omega
            have hdlg : (l.drop (36 + len)).length < g := by simp; omega
            by_cases hcm : committed = false
            · simp only [if_neg hlen, if_pos hcm, ih g (l.drop (36 + len)) hdl hdlg]
            · simp only [if_neg hlen, if_neg hcm, ih g (l.drop (36 + len)) hdl hdlg]

theorem scanGo_unfold (f : Nat) (l : List Nat) (h : l.length < f) :
    scanGo f l =
      if l = [] then ⟨[], none, 0⟩
      else
        match blockHeaderParse (l.take 36) with
        | none => ⟨[], some .formatError, 0⟩
        | some (len, chk, committed) =>
          if len = 0 then
            let r := iterBlocksAcc (l.drop 36)
            ⟨r.blocks, r.err, 36 + r.consumed⟩
          else if committed = false then
            let r := iterBlocksAcc (l.drop (36 + len))
            ⟨r.blocks, r.err, 36 + len + r.consumed⟩
          else
            let payload := (l.drop 36).take len
            if payload.length ≠ len then ⟨[], some .shortReadError, 0⟩
            else if crc32 payload ≠ chk then ⟨[], some .checksumError, 0⟩
            else
              let r := iterBlocksAcc (l.drop (36 + len))
              ⟨payload :: r.blocks, r.err, 36 + len + r.consumed⟩ := by
  cases f with
  | zero => omega
  | succ f =>
    by_cases hnil : l = []
    · simp [scanGo, hnil]
    · have hpos : 0 < l.length := List.length_pos.mpr hnil
      have e36 : scanGo f (l.drop 36) = iterBlocksAcc (l.drop 36) := by
        unfold iterBlocksAcc
        exact scanGo_fuel _ _ _ (by simp; omega) (by simp)
      have edl : ∀ k, scanGo f (l.drop (36 + k)) = iterBlocksAcc (l.drop (36 + k)) := by
        intro k
        unfold iterBlocksAcc
        exact scanGo_fuel _ _ _ (by simp; omega) (by simp)
      simp only [scanGo, if_neg hnil, e36, edl]

/-- The canonical one-step unfolding of the block scanner. -/
theorem iterBlocksAcc_eq (l : List Nat) :
    iterBlocksAcc l =
      if l = [] then ⟨[], none, 0⟩
      else
        match blockHeaderParse (l.take 36) with
        | none => ⟨[], some .formatError, 0⟩
        | some (len, chk, committed) =>
          if len = 0 then
            let r := iterBlocksAcc (l.drop 36)
            ⟨r.blocks, r.err, 36 + r.consumed⟩
          else if committed = false then
            let r := iterBlocksAcc (l.drop (36 + len))
            ⟨r.blocks, r.err, 36 + len + r.consumed⟩
          else
            let payload := (l.drop 36).take len
            if payload.length ≠ len then ⟨[], some .shortReadError, 0⟩
            else if crc32 payload ≠ chk then ⟨[], some .checksumError, 0⟩
            else
              let r := iterBlocksAcc (l.drop (36 + len))
              ⟨payload :: r.blocks, r.err, 36 + len + r.consumed⟩ :=
  scanGo_unfold (l.length + 1) l (by omega)

/-! ## On-disk blocks

A `Block` is the abstract content of one on-disk block: the
`committed` flag, the stored checksum field, and the (compressed)
payload bytes; the `length` field always equals the payload length
here (the file was produced by writers that append whole blocks).
`serializeBlock` lays it out exactly as `commit` writes it. -/

structure Block where
  committed : Bool
  checksum : Nat
  payload : List Nat
deriving DecidableEq

def serializeBlock (b : Block) : List Nat :=
  blockHeaderBytes b.payload.length b.checksum b.committed ++ b.payload

def serializeBlocks : List Block → List Nat
  | [] => []
  | b :: bs => serializeBlock b ++ serializeBlocks bs

/-- The payloads the scanner yields: those of committed, non-empty
blocks, in file order. -/
def committedPayloads (bs : List Block) : List (List Nat) :=
  (bs.filter (fun b => b.committed && !b.payload.isEmpty)).map Block.payload

/-- Well-formedness of a stored block: fields fit their 32-bit header
slots, and a committed non-empty block carries the checksum of its
payload.  Nothing is assumed about the checksum stored in an
uncommitted or empty block. -/
def BlockOk (b : Block) : Prop :=
  b.payload.length < 2 ^ 32 ∧ b.checksum < 2 ^ 32 ∧
    (b.committed = true → b.payload ≠ [] → b.checksum = crc32 b.payload)

instance decBlockOk (b : Block) : Decidable (BlockOk b) := by
  unfold BlockOk
  infer_instance

theorem serializeBlock_append_ne_nil (b : Block) (rest : List Nat) :
    serializeBlock b ++ rest ≠ [] := by
  simp [serializeBlock, blockHeaderBytes]

theorem serializeBlock_length (b : Block) :
    (serializeBlock b).length = 36 + b.payload.length := by
  simp [serializeBlock, blockHeaderBytes_length]

theorem serializeBlock_take36 (b : Block) (rest : List Nat) :
    (serializeBlock b ++ rest).take 36 =
      blockHeaderBytes b.payload.length b.checksum b.committed := by
  rw [serializeBlock, List.append_assoc]
  exact List.take_left' (blockHeaderBytes_length _ _ _)

theorem serializeBlock_drop36 (b : Block) (rest : List Nat) :
    (serializeBlock b ++ rest).drop 36 = b.payload ++ rest := by
  rw [serializeBlock, List.append_assoc]
  exact List.drop_left' (blockHeaderBytes_length _ _ _)

theorem serializeBlock_dropAll (b : Block) (rest : List Nat) :
    (serializeBlock b ++ rest).drop (36 + b.payload.length) = rest :=
  List.drop_left' (serializeBlock_length b)

/-- Scanner step: a committed, non-empty, checksum-correct block is
yielded and the scan continues after it. -/
theorem iterBlocksAcc_cons_committed (b : Block) (rest : List Nat)
    (hc : b.committed = true) (hne : b.payload ≠ []) (hl : b.payload.length < 2 ^ 32)
    (hk : b.checksum < 2 ^ 32) (hchk : crc32 b.payload = b.checksum) :
    iterBlocksAcc (serializeBlock b ++ rest) =
      ⟨b.payload :: (iterBlocksAcc rest).blocks, (iterBlocksAcc rest).err,
       36 + b.payload.length + (iterBlocksAcc rest).consumed⟩ := by
  conv_lhs => rw [iterBlocksAcc_eq]
  have h1 : serializeBlock b ++ rest ≠ [] := serializeBlock_append_ne_nil b rest
  have h5 : blockHeaderParse ((serializeBlock b ++ rest).take 36) =
      some (b.payload.length, b.checksum, b.committed) := by
    rw [serializeBlock_take36]
    exact blockHeaderParse_bytes _ _ _ hl hk
  have hlen0 : b.payload.length ≠ 0 := by simpa [List.length_eq_zero] using hne
  have htk : ((serializeBlock b ++ rest).drop 36).take b.payload.length = b.payload := by
    rw [serializeBlock_drop36]
    exact List.take_left' rfl
  simp only [if_neg h1, h5, hc, hlen0, htk, serializeBlock_dropAll, hchk,
    if_neg, ite_false, ne_eq, not_true_eq_false, not_false_eq_true, ite_true,
    Bool.true_eq_false, if_false, reduceIte]

/-- Scanner step: a non-empty uncommitted block is skipped by seeking
over its payload; nothing is yielded and its checksum is not read. -/
theorem iterBlocksAcc_cons_uncommitted (b : Block) (rest : List Nat)
    (hc : b.committed = false) (hne : b.payload ≠ []) (hl : b.payload.length < 2 ^ 32)
    (hk : b.checksum < 2 ^ 32) :
    iterBlocksAcc (serializeBlock b ++ rest) =
      ⟨(iterBlocksAcc rest).blocks, (iterBlocksAcc rest).err,
       36 + b.payload.length + (iterBlocksAcc rest).consumed⟩ := by
  conv_lhs => rw [iterBlocksAcc_eq]
  have h1 : serializeBlock b ++ rest ≠ [] := serializeBlock_append_ne_nil b rest
  have h5 : blockHeaderParse ((serializeBlock b ++ rest).take 36) =
      some (b.payload.length, b.checksum, b.committed) := by
    rw [serializeBlock_take36]
    exact blockHeaderParse_bytes _ _ _ hl hk
  have hlen0 : b.payload.length ≠ 0 := by simpa [List.length_eq_zero] using hne
  simp only [if_neg h1, h5, hc, hlen0, serializeBlock_dropAll,
    ite_false, ite_true, reduceIte]

/-- Scanner step: a `length == 0` block is skipped as an empty
placeholder. -/
theorem iterBlocksAcc_cons_empty (b : Block) (rest : List Nat)
    (hp : b.payload = []) (hk : b.checksum < 2 ^ 32) :
    iterBlocksAcc (serializeBlock b ++ rest) =
      ⟨(iterBlocksAcc rest).blocks, (iterBlocksAcc rest).err,
       36 + (iterBlocksAcc rest).consumed⟩ := by
  conv_lhs => rw [iterBlocksAcc_eq]
  have h1 : serializeBlock b ++ rest ≠ [] := serializeBlock_append_ne_nil b rest
  have h5 : blockHeaderParse ((serializeBlock b ++ rest).take 36) =
      some (b.payload.length, b.checksum, b.committed) := by
    rw [serializeBlock_take36]
    exact blockHeaderParse_bytes _ _ _ (by simp [hp]) hk
  have hd : (serializeBlock b ++ rest).drop 36 = rest := by
    rw [serializeBlock_drop36, hp, List.nil_append]
  simp only [if_neg h1, h5, hp, List.length_nil, ite_true, hd, reduceIte]

/-- Scanner step: a committed non-empty block whose stored checksum
does not match the recomputed CRC-32 aborts the scan. -/
theorem iterBlocksAcc_cons_badChecksum (b : Block) (rest : List Nat)
    (hc : b.committed = true) (hne : b.payload ≠ []) (hl : b.payload.length < 2 ^ 32)
    (hk : b.checksum < 2 ^ 32) (hbad : crc32 b.payload ≠ b.checksum) :
    iterBlocksAcc (serializeBlock b ++ rest) = ⟨[], some .checksumError, 0⟩ := by
  conv_lhs => rw [iterBlocksAcc_eq]
  have h1 : serializeBlock b ++ rest ≠ [] := serializeBlock_append_ne_nil b rest
  have h5 : blockHeaderParse ((serializeBlock b ++ rest).take 36) =
      some (b.payload.length, b.checksum, b.committed) := by
    rw [serializeBlock_take36]
    exact blockHeaderParse_bytes _ _ _ hl hk
  have hlen0 : b.payload.length ≠ 0 := by simpa [List.length_eq_zero] using hne
  have htk : ((serializeBlock b ++ rest).drop 36).take b.payload.length = b.payload := by
    rw [serializeBlock_drop36]
    exact List.take_left' rfl
  simp only [if_neg h1, h5, hc, hlen0, htk, hbad, ite_false, ite_true,
    Bool.true_eq_false, reduceIte, ne_eq, not_true_eq_false, not_false_eq_true]

/-- Scanning a well-formed sequence of blocks yields exactly the
payloads of the committed non-empty blocks, no error, and consumes
the whole file. -/
theorem iterBlocksAcc_serialize (bs : List Block) (h : ∀ b ∈ bs, BlockOk b) :
    iterBlocksAcc (serializeBlocks bs) =
      ⟨committedPayloads bs, none, (serializeBlocks bs).length⟩ := by
  induction bs with
  | nil => simp [serializeBlocks, committedPayloads, iterBlocksAcc, scanGo]
  | cons b rest ih =>
    obtain ⟨hl, hk, hchk⟩ := h b (by simp)
    have hrest := ih (fun x hx => h x (by simp [hx]))
    by_cases hp : b.payload = []
    · rw [serializeBlocks, iterBlocksAcc_cons_empty b _ hp hk, hrest]
      simp [committedPayloads, List.filter, hp, serializeBlock_length]
    · have hpe : b.payload.isEmpty = false := by
        cases hple : b.payload
        · exact absurd hple hp
        · rfl
      by_cases hcm : b.committed = true
      · rw [serializeBlocks,
          iterBlocksAcc_cons_committed b _ hcm hp hl hk (hchk hcm hp).symm, hrest]
        simp [committedPayloads, List.filter, hpe, hcm, serializeBlock_length,
          List.length_append]
      · have hcf : b.committed = false := by
          cases hb : b.committed
          · rfl
          · exact absurd hb hcm
        rw [serializeBlocks, iterBlocksAcc_cons_uncommitted b _ hcf hp hl hk, hrest]
        simp [committedPayloads, List.filter, hpe, hcf, serializeBlock_length,
          List.length_append]

/-! ## Message codec (`iter_messages`)

Given one block's decompressed byte stream: read an 84-byte header
chunk (empty read ends the block), parse it (a `construct` failure or
a non-ASCII topic byte raises), read exactly `length` payload bytes
(a short read raises), and yield the `Message` with the topic
stripped of its trailing null padding.  Fuel-structured like the
block scanner. -/

def msgGo : Nat → List Nat → List Message × Option ScanError
  | 0, _ => ([], none)
  | fuel + 1, l =>
    if l = [] then ([], none)
    else
      match messageHeaderParse (l.take 84) with
      | none => ([], some .formatError)
      | some (len, ts, topic) =>
        let payload := (l.drop 84).take len
        if payload.length ≠ len then ([], some .shortReadError)
        else
          let r := msgGo fuel (l.drop (84 + len))
          (⟨topic, ts, payload⟩ :: r.1, r.2)

def iterMessages (l : List Nat) : List Message × Option ScanError :=
  msgGo (l.length + 1) l

theorem msgGo_fuel (f : Nat) : ∀ (g : Nat) (l : List Nat),
    l.length < f → l.length < g → msgGo f l = msgGo g l := by
  induction f with
  | zero => intro g l hf; omega
  | succ f ih =>
    intro g l hf hg
    cases g with
    | zero => omega
    | succ g =>
      by_cases hnil : l = []
      · simp [msgGo, hnil]
      · have hpos : 0 < l.length := List.length_pos.mpr hnil
        simp only [msgGo, if_neg hnil]
        cases hp : messageHeaderParse (l.take 84) with
        | none => rfl
        | some v =>
          obtain ⟨len, ts, topic⟩ := v
          have hdl : (l.drop (84 + len)).length < f := by simp; omega
          have hdlg : (l.drop (84 + len)).length < g := by simp; omega
          simp only [ih g (l.drop (84 + len)) hdl hdlg]

theorem msgGo_unfold (f : Nat) (l : List Nat) (h : l.length < f) :
    msgGo f l =
      if l = [] then ([], none)
      else
        match messageHeaderParse (l.take 84) with
        | none => ([], some .formatError)
        | some (len, ts, topic) =>
          let payload := (l.drop 84).take len
          if payload.length ≠ len then ([], some .shortReadError)
          else
            let r := iterMessages (l.drop (84 + len))
            (⟨topic, ts, payload⟩ :: r.1, r.2) := by
  cases f with
  | zero => omega
  | succ f =>
    by_cases hnil : l = []
    · simp [msgGo, hnil]
    · have hpos : 0 < l.length := List.length_pos.mpr hnil
      have edl : ∀ k, msgGo f (l.drop (84 + k)) = iterMessages (l.drop (84 + k)) := by
        intro k
        unfold iterMessages
        exact msgGo_fuel _ _ _ (by simp; omega) (by simp)
      simp only [msgGo, if_neg hnil, edl]

/-- The canonical one-step unfolding of the message codec. -/
theorem iterMessages_eq (l : List Nat) :
    iterMessages l =
      if l = [] then ([], none)
      else
        match messageHeaderParse (l.take 84) with
        | none => ([], some .formatError)
        | some (len, ts, topic) =>
          let payload := (l.drop 84).take len
          if payload.length ≠ len then ([], some .shortReadError)
          else
            let r := iterMessages (l.drop (84 + len))
            (⟨topic, ts, payload⟩ :: r.1, r.2) :=
  msgGo_unfold (l.length + 1) l (by omega)

/-! ## Message frames written by `store` -/

/-- The bytes `store` appends for one message: the built
`MessageHeader` followed by the raw payload. -/
def frameOf (t : List Nat) (now : Nat) (p : List Nat) : List Nat :=
  messageHeaderBytes p.length now t ++ p

def framesOf : List (List Nat × Nat × List Nat) → List Nat
  | [] => []
  | (t, now, p) :: rest => frameOf t now p ++ framesOf rest

/-- A storable message: an ASCII topic of encoded length ≤ 64 bytes,
a timestamp and payload length that fit their header fields, and a
payload made of bytes. -/
def ValidMsg (m : List Nat × Nat × List Nat) : Prop :=
  m.1.length ≤ 64 ∧ (∀ ch ∈ m.1, ch < 128) ∧ m.2.2.length < 2 ^ 32 ∧
    m.2.1 < 2 ^ 64 ∧ (∀ b ∈ m.2.2, b < 256)

instance decValidMsg (m : List Nat × Nat × List Nat) : Decidable (ValidMsg m) := by
  unfold ValidMsg
  infer_instance

theorem frameOf_ne_nil (t : List Nat) (now : Nat) (p : List Nat) :
    frameOf t now p ++ framesOf rest ≠ [] := by
  simp [frameOf, messageHeaderBytes]

theorem frameOf_length (t : List Nat) (now : Nat) (p : List Nat)
    (ht : t.length ≤ 64) : (frameOf t now p).length = 84 + p.length := by
  simp [frameOf, messageHeaderBytes_length _ _ _ ht]

theorem iterMessages_frames (msgs : List (List Nat × Nat × List Nat))
    (h : ∀ m ∈ msgs, ValidMsg m) :
    iterMessages (framesOf msgs) =
      (msgs.map (fun m => ⟨rstripNulls m.1, m.2.1, m.2.2⟩), none) := by
  induction msgs with
  | nil => simp [framesOf, iterMessages, msgGo]
  | cons m rest ih =>
    obtain ⟨t, now, p⟩ := m
    obtain ⟨ht64, hta, hpl, hts, _⟩ := h (t, now, p) (by simp)
    have hrest := ih (fun x hx => h x (by simp [hx]))
    rw [framesOf, iterMessages_eq]
    have hsplit : frameOf t now p ++ framesOf rest =
        messageHeaderBytes p.length now t ++ (p ++ framesOf rest) := by
      rw [frameOf, List.append_assoc]
    have htake : (frameOf t now p ++ framesOf rest).take 84 =
        messageHeaderBytes p.length now t := by
      rw [hsplit]
      exact List.take_left' (messageHeaderBytes_length _ _ _ ht64)
    have hparse : messageHeaderParse ((frameOf t now p ++ framesOf rest).take 84) =
        some (p.length, now, rstripNulls t) := by
      rw [htake]
      exact messageHeaderParse_bytes _ _ _ hpl hts hta ht64
    have hdrop : (frameOf t now p ++ framesOf rest).drop 84 = p ++ framesOf rest := by
      rw [hsplit]
      exact List.drop_left' (messageHeaderBytes_length _ _ _ ht64)
    have htkp : ((frameOf t now p ++ framesOf rest).drop 84).take p.length = p := by
      rw [hdrop]
      exact List.take_left' rfl
    have hdall : (frameOf t now p ++ framesOf rest).drop (84 + p.length) =
        framesOf rest := by
      exact List.drop_left' (frameOf_length _ _ _ ht64)
    simp only [if_neg (frameOf_ne_nil t now p), hparse, htkp, hdall, hrest,
      ne_eq, not_true_eq_false, reduceIte, List.map_cons]

/-! ## `read_messages` and `read_messages_follow`

`read_messages` decompresses each scanned block and decodes its
messages; an error while decoding a block preempts the rest, and a
scanner error surfaces after the messages of the blocks scanned
before it.  `read_messages_follow` repeatedly drains `read_messages`
against the held file handle, then sleeps and resumes from the
current file position; it is modelled on the sequence of file
contents observed at each drain cycle, threading the file position. -/

def decodeBlock (c : Codec) (bl : List Nat) : List Message × Option ScanError :=
  match c.decompress bl with
  | none => ([], some .decompressError)
  | some raw => iterMessages raw

def decodeBlocks (c : Codec) : List (List Nat) → Option ScanError →
    List Message × Option ScanError
  | [], scanErr => ([], scanErr)
  | bl :: rest, scanErr =>
    match decodeBlock c bl with
    | (ms, some e) => (ms, some e)
    | (ms, none) =>
      let r := decodeBlocks c rest scanErr
      (ms ++ r.1, r.2)

/-- `read_messages(fp)` on a whole file. -/
def readMessages (c : Codec) (file : List Nat) : List Message × Option ScanError :=
  decodeBlocks c (iterBlocksAcc file).blocks (iterBlocksAcc file).err

/-- One drain cycle of the follow driver, starting at file position
`pos`; also returns the position after the drain. -/
def followGo (c : Codec) : List (List Nat) → Nat → List (List Message) × Option ScanError
  | [], _ => ([], none)
  | f :: rest, pos =>
    let s := iterBlocksAcc (f.drop pos)
    let d := decodeBlocks c s.blocks s.err
    match d.2 with
    | some e => ([d.1], some e)
    | none =>
      let r := followGo c rest (pos + s.consumed)
      (d.1 :: r.1, r.2)

/-- `read_messages_follow(fp)`: the sequence of per-cycle message
batches, given the file contents observed at each wake-up. -/
def readMessagesFollow (c : Codec) (files : List (List Nat)) :
    List (List Message) × Option ScanError :=
  followGo c files 0

/-- The growing file seen by a follower: each cycle appends the next
delta of whole blocks to the previous contents. -/
def cumFilesFrom (base : List Nat) : List (List Block) → List (List Nat)
  | [] => []
  | d :: ds => (base ++ serializeBlocks d) :: cumFilesFrom (base ++ serializeBlocks d) ds

theorem decodeBlocks_ok (c : Codec) (bls : List (List Nat)) (e : Option ScanError)
    (h : ∀ bl ∈ bls, (decodeBlock c bl).2 = none) :
    decodeBlocks c bls e =
      ((bls.map (fun bl => (decodeBlock c bl).1)).flatten, e) := by
  induction bls with
  | nil => simp [decodeBlocks]
  | cons bl rest ih =>
    have hbl := h bl (by simp)
    have hrest := ih (fun x hx => h x (by simp [hx]))
    rw [decodeBlocks]
    split
    · rename_i ms e' heq
      rw [heq] at hbl
      simp at hbl
    · rename_i ms heq
      rw [hrest]
      simp only [List.map_cons, List.flatten_cons, heq]

/-- A follower that wakes up on a chain of well-formed whole-block
extensions of the file drains, at each cycle, exactly the blocks
appended since its previous position, and never re-reads consumed
bytes. -/
theorem followGo_cumFiles (c : Codec) (deltas : List (List Block)) (base : List Nat)
    (h : ∀ d ∈ deltas, (∀ b ∈ d, BlockOk b) ∧
      (decodeBlocks c (committedPayloads d) none).2 = none) :
    followGo c (cumFilesFrom base deltas) base.length =
      (deltas.map (fun d => (decodeBlocks c (committedPayloads d) none).1), none) := by
  induction deltas generalizing base with
  | nil => simp [cumFilesFrom, followGo]
  | cons d ds ih =>
    obtain ⟨hok, hdec⟩ := h d (by simp)
    have hds : ∀ x ∈ ds, (∀ b ∈ x, BlockOk b) ∧
        (decodeBlocks c (committedPayloads x) none).2 = none :=
      fun x hx => h x (by simp [hx])
    rw [cumFilesFrom, followGo]
    have hdrop : (base ++ serializeBlocks d).drop base.length = serializeBlocks d :=
      List.drop_left _ _
    simp only [hdrop, iterBlocksAcc_serialize d hok, hdec]
    have hpos : base.length + (serializeBlocks d).length =
        (base ++ serializeBlocks d).length := by simp
    rw [hpos, ih (base ++ serializeBlocks d) hds]
    simp

/-! ## The writer-to-reader round trip -/

theorem framesOf_cons_ne_nil (t : List Nat) (now : Nat) (p : List Nat)
    (rest : List (List Nat × Nat × List Nat)) :
    framesOf ((t, now, p) :: rest) ≠ [] := by
  rw [framesOf]
  exact frameOf_ne_nil t now p

theorem messageHeaderBytes_bytes (len ts : Nat) (topic : List Nat)
    (hta : ∀ ch ∈ topic, ch < 128) : ∀ b ∈ messageHeaderBytes len ts topic, b < 256 := by
  intro b hb
  simp only [messageHeaderBytes, List.cons_append, List.nil_append, List.mem_cons,
    List.mem_append] at hb
  rcases hb with rfl | rfl | rfl | rfl | rfl | rfl | rfl | rfl | rfl | rfl | rfl | rfl |
    rfl | rfl | rfl | rfl | rfl | rfl | rfl | rfl | hb
  all_goals try omega
  rcases hb with hb | hb
  · have := hta b hb
    omega
  · have := List.eq_of_mem_replicate hb
    omega

theorem framesOf_bytes (msgs : List (List Nat × Nat × List Nat))
    (h : ∀ m ∈ msgs, ValidMsg m) : ∀ b ∈ framesOf msgs, b < 256 := by
  induction msgs with
  | nil => simp [framesOf]
  | cons m rest ih =>
    obtain ⟨t, now, p⟩ := m
    obtain ⟨_, hta, _, _, hpb⟩ := h (t, now, p) (by simp)
    intro b hb
    rw [framesOf, frameOf] at hb
    rcases List.mem_append.mp hb with hb | hb
    · rcases List.mem_append.mp hb with hb | hb
      · exact messageHeaderBytes_bytes _ _ _ hta b hb
      · exact hpb b hb
    · exact ih (fun x hx => h x (by simp [hx])) b hb

/-- `store`-ing a list of valid messages appends exactly their frames
to the buffer, raising nothing. -/
theorem storeAll_frames (msgs : List (List Nat × Nat × List Nat))
    (h : ∀ m ∈ msgs, ValidMsg m) : ∀ w : BrokeWriter,
    storeAll w msgs = (⟨w.buffer ++ framesOf msgs⟩, none) := by
  induction msgs with
  | nil => intro w; simp [storeAll, framesOf]
  | cons m rest ih =>
    intro w
    obtain ⟨t, now, p⟩ := m
    obtain ⟨ht64, hta, hpl, hts, _⟩ := h (t, now, p) (by simp)
    have htk : t.take 64 = t := List.take_of_length_le ht64
    have hbuild : messageHeaderBuild p.length now t =
        some (messageHeaderBytes p.length now t) := by
      unfold messageHeaderBuild
      rw [htk, if_pos ⟨hpl, hts, hta⟩]
    rw [storeAll]
    simp only [storeRun, hbuild]
    rw [ih (fun x hx => h x (by simp [hx])) ⟨w.buffer ++ messageHeaderBytes p.length now t ++ p⟩]
    simp [framesOf, frameOf, List.append_assoc]

/-- Round-trip core: store valid messages on a fresh writer into an
empty file, commit, scan.  The scan yields exactly the stored
messages, in order, with original payloads and timestamps and the
topic stripped of trailing nulls. -/
theorem readMessages_roundtrip (c : Codec) (msgs : List (List Nat × Nat × List Nat))
    (h : ∀ m ∈ msgs, ValidMsg m)
    (hlen : (c.compress (framesOf msgs)).length < 2 ^ 32) :
    readMessages c (commit c (storeAll ⟨[]⟩ msgs).1 [] none false).file =
      (msgs.map (fun m => ⟨rstripNulls m.1, m.2.1, m.2.2⟩), none) := by
  rw [storeAll_frames msgs h ⟨[]⟩]
  cases msgs with
  | nil =>
    simp [framesOf, commit, BrokeWriter.dirty, readMessages, iterBlocksAcc, scanGo,
      decodeBlocks]
  | cons m rest =>
    obtain ⟨t, now, p⟩ := m
    set ms := (t, now, p) :: rest with hms
    have hne : framesOf ms = framesOf ms := rfl
    have hfne : framesOf ms ≠ [] := framesOf_cons_ne_nil t now p rest
    have hdirty : (BrokeWriter.mk ([] ++ framesOf ms)).dirty = true := by
      simp only [List.nil_append]
      unfold BrokeWriter.dirty
      simp [List.length_pos, hfne]
    have hfb : ∀ b ∈ framesOf ms, b < 256 := framesOf_bytes ms h
    have hcb : ∀ b ∈ c.compress (([] : List Nat) ++ framesOf ms), b < 256 := by
      rw [List.nil_append]
      exact c.compress_bytes (framesOf ms) hfb
    have hchk : crc32 (c.compress (BrokeWriter.mk ([] ++ framesOf ms)).buffer) < 2 ^ 32 :=
      crc32_lt hcb
    rw [commit_clean c _ _ false hdirty (by simpa using hlen) hchk]
    simp only [List.nil_append]
    set comp := c.compress (framesOf ms) with hcomp
    have hblock : blockHeaderBytes comp.length (crc32 comp) true ++ comp =
        serializeBlock ⟨true, crc32 comp, comp⟩ ++ [] := by
      simp [serializeBlock]
    rw [readMessages]
    have hscan : iterBlocksAcc (blockHeaderBytes comp.length (crc32 comp) true ++ comp) =
        ⟨comp :: (iterBlocksAcc ([] : List Nat)).blocks, (iterBlocksAcc ([] : List Nat)).err,
         36 + comp.length + (iterBlocksAcc ([] : List Nat)).consumed⟩ := by
      rw [hblock]
      exact iterBlocksAcc_cons_committed ⟨true, crc32 comp, comp⟩ [] rfl
        (c.compress_ne_nil (framesOf ms) hfne) (by simpa using hlen) (crc32_lt (by simpa using hcb)) rfl
    rw [hscan]
    have hnil2 : iterBlocksAcc ([] : List Nat) = ⟨[], none, 0⟩ := rfl
    rw [hnil2]
    have hdecode : decodeBlock c comp =
        (ms.map (fun m => ⟨rstripNulls m.1, m.2.1, m.2.2⟩), none) := by
      rw [decodeBlock, hcomp, c.decompress_compress]
      exact iterMessages_frames ms h
    rw [decodeBlocks]
    split
    · rename_i msx e heq
      rw [hdecode] at heq
      simp at heq
    · rename_i msx heq
      rw [hdecode] at heq
      rw [decodeBlocks]
      simp only [Prod.mk.injEq] at heq
      simp [heq.1]

/-- A checksum-mismatching committed block aborts the scan right at
that block: everything committed before it is yielded, then the
`ChecksumError` is raised. -/
theorem scan_bad_middle (pre : List Block) (b : Block) (post : List Block)
    (hpre : ∀ x ∈ pre, BlockOk x) (hc : b.committed = true) (hne : b.payload ≠ [])
    (hl : b.payload.length < 2 ^ 32) (hk : b.checksum < 2 ^ 32)
    (hbad : crc32 b.payload ≠ b.checksum) :
    (iterBlocksAcc (serializeBlocks (pre ++ b :: post))).blocks = committedPayloads pre ∧
    (iterBlocksAcc (serializeBlocks (pre ++ b :: post))).err = some .checksumError := by
  induction pre with
  | nil =>
    rw [List.nil_append, serializeBlocks,
      iterBlocksAcc_cons_badChecksum b _ hc hne hl hk hbad]
    simp [committedPayloads]
  | cons x xs ih =>
    obtain ⟨hxl, hxk, hxchk⟩ := hpre x (by simp)
    have ihr := ih (fun y hy => hpre y (by simp [hy]))
    rw [List.cons_append, serializeBlocks]
    by_cases hp : x.payload = []
    · rw [iterBlocksAcc_cons_empty x _ hp hxk]
      refine ⟨?_, ihr.2⟩
      simp only [ihr.1]
      have hpe : x.payload.isEmpty = true := by simp [hp]
      simp [committedPayloads, List.filter, hpe]
    · have hpe : x.payload.isEmpty = false := by
        cases hple : x.payload
        · exact absurd hple hp
        · rfl
      by_cases hcm : x.committed = true
      · rw [iterBlocksAcc_cons_committed x _ hcm hp hxl hxk (hxchk hcm hp).symm]
        refine ⟨?_, ihr.2⟩
        simp only [ihr.1]
        simp [committedPayloads, List.filter, hpe, hcm]
      · have hcf : x.committed = false := by
          cases hb : x.committed
          · rfl
          · exact absurd hb hcm
        rw [iterBlocksAcc_cons_uncommitted x _ hcf hp hxl hxk]
        refine ⟨?_, ihr.2⟩
        simp only [ihr.1]
        simp [committedPayloads, List.filter, hpe, hcf]

/-! ## Claims -/

/-- **C2** — Crash-anomaly skipping: scanning a log file made of
whole blocks yields payload bytes exactly from the blocks whose
header has `committed == true` and `length > 0` (that is
`committedPayloads`); a `length == 0` block is skipped and scanning
continues, an uncommitted block is skipped by seeking over its
`length` payload bytes without parsing them (its stored checksum is
never inspected, see `BlockOk`), and committed blocks before and
after such anomalies are all yielded; the scan ends cleanly at EOF
having consumed the whole file. -/
theorem claim_C2_crash_anomaly_skipping (bs : List Block) (h : ∀ b ∈ bs, BlockOk b) :
    iterBlocksAcc (serializeBlocks bs) =
      ⟨committedPayloads bs, none, (serializeBlocks bs).length⟩ :=
  iterBlocksAcc_serialize bs h

set_option maxRecDepth 40000 in
theorem claim_C2_witness :
    (∀ b ∈ [Block.mk true (crc32 [1, 2]) [1, 2], Block.mk false 9999 [3, 4, 5],
        Block.mk true 7 [], Block.mk true (crc32 [6]) [6]], BlockOk b) ∧
    iterBlocksAcc (serializeBlocks [Block.mk true (crc32 [1, 2]) [1, 2],
        Block.mk false 9999 [3, 4, 5], Block.mk true 7 [], Block.mk true (crc32 [6]) [6]]) =
      ⟨[[1, 2], [6]], none, 150⟩ := by
  refine ⟨by decide, ?_⟩
  rw [claim_C2_crash_anomaly_skipping _ (by decide)]
  decide

/-- **C3** — Checksum enforcement.  First part: for every committed
non-empty block whose stored checksum differs from the CRC-32 of its
payload bytes, the scan raises `ChecksumError` at that block — the
blocks committed before it are yielded, nothing of the bad block is,
and the mismatch is fatal, never skipped.  Second part: flipping any
single byte of a payload always changes its CRC-32, so in particular
a one-byte corruption of a committed block's payload triggers the
first part. -/
theorem claim_C3_checksum_enforcement :
    (∀ (pre : List Block) (b : Block) (post : List Block),
      (∀ x ∈ pre, BlockOk x) → b.committed = true → b.payload ≠ [] →
      b.payload.length < 2 ^ 32 → b.checksum < 2 ^ 32 →
      crc32 b.payload ≠ b.checksum →
      (iterBlocksAcc (serializeBlocks (pre ++ b :: post))).blocks = committedPayloads pre ∧
      (iterBlocksAcc (serializeBlocks (pre ++ b :: post))).err = some .checksumError) ∧
    (∀ (p : List Nat) (i v : Nat), (∀ x ∈ p, x < 256) → i < p.length → v < 256 →
      v ≠ p.getD i 0 → crc32 (p.set i v) ≠ crc32 p) :=
  ⟨fun pre b post hpre hc hne hl hk hbad => scan_bad_middle pre b post hpre hc hne hl hk hbad,
   fun _ _ _ hp hi hv hne => crc32_flip_ne hp hi hv hne⟩

set_option maxRecDepth 40000 in
theorem claim_C3_witness :
    ((iterBlocksAcc (serializeBlocks
        [Block.mk true (crc32 [9]) [9], Block.mk true (crc32 [1, 2] + 1) [1, 2]])).blocks =
        [[9]] ∧
     (iterBlocksAcc (serializeBlocks
        [Block.mk true (crc32 [9]) [9], Block.mk true (crc32 [1, 2] + 1) [1, 2]])).err =
        some .checksumError) ∧
    crc32 ([1, 2, 3].set 1 7) ≠ crc32 [1, 2, 3] := by
  constructor
  · have := claim_C3_checksum_enforcement.1 [Block.mk true (crc32 [9]) [9]]
      (Block.mk true (crc32 [1, 2] + 1) [1, 2]) [] (by decide) (by decide) (by decide)
      (by decide) (by decide) (by decide)
    simp only [List.singleton_append] at this
    constructor
    · rw [this.1]
      decide
    · exact this.2
  · exact claim_C3_checksum_enforcement.2 [1, 2, 3] 1 7 (by decide) (by decide)
      (by decide) (by decide)

def isFlushOp : FileOp → Bool
  | .flush => true
  | _ => false

def isSeekToOp : FileOp → Bool
  | .seekTo _ => true
  | _ => false

/-- The ordering claim C4 makes about the trace of a dirty commit:
some flush occurs strictly before the seek back to the block start.
(`List.findIdx` is the index of the first matching element.) -/
def FlushBeforeFlip (ops : List FileOp) : Prop :=
  ops.findIdx isFlushOp < ops.findIdx isSeekToOp

instance decFlushBeforeFlip (ops : List FileOp) : Decidable (FlushBeforeFlip ops) := by
  unfold FlushBeforeFlip
  infer_instance

/-- **C4 counterexample** — the code performs a dirty commit's only
flush *after* seeking back and rewriting the header with
`committed=true`: on a concrete dirty commit the trace is non-empty
yet no flush precedes the seek-back, refuting the claimed
"write header, write payload, flush, then seek back" ordering. -/
theorem claim_C4_counterexample :
    (commit idCodec ⟨[1]⟩ [] none false).ops ≠ [] ∧
    ¬ FlushBeforeFlip (commit idCodec ⟨[1]⟩ [] none false).ops := by
  decide

/-- **C4 amended** — a dirty commit writes the `committed=false`
header, then the compressed payload, then seeks back to the block's
start offset, rewrites the header with `committed=true`, and flushes
exactly once, at the very end; no flush happens before the flag is
flipped. -/
theorem claim_C4_two_phase_ordering (c : Codec) (w : BrokeWriter) (file : List Nat)
    (hd : w.dirty = true) (hlen : (c.compress w.buffer).length < 2 ^ 32)
    (hchk : crc32 (c.compress w.buffer) < 2 ^ 32) :
    (commit c w file none false).ops =
      [.seekEnd,
       .write (blockHeaderBytes (c.compress w.buffer).length
         (crc32 (c.compress w.buffer)) false),
       .write (c.compress w.buffer),
       .seekTo file.length,
       .write (blockHeaderBytes (c.compress w.buffer).length
         (crc32 (c.compress w.buffer)) true),
       .flush] := by
  rw [commit_clean c w file false hd hlen hchk]

theorem claim_C4_witness :
    (BrokeWriter.mk [1]).dirty = true ∧
    (commit idCodec ⟨[1]⟩ [] none false).ops =
      [.seekEnd, .write (blockHeaderBytes 1 (crc32 [1]) false), .write [1],
       .seekTo 0, .write (blockHeaderBytes 1 (crc32 [1]) true), .flush] :=
  ⟨by decide, claim_C4_two_phase_ordering idCodec ⟨[1]⟩ [] (by decide) (by decide) (by decide)⟩

/-- **C5 counterexample** — a 65-byte ASCII topic does *not* make
`store` raise: `construct` 2.5.2's `PaddedStringAdapter` silently
trims it to 64 bytes and the build succeeds, so `store` returns no
error and the buffer *is* mutated — refuting both the claimed
rejection of topics longer than 64 bytes and the claimed
unchanged-buffer-on-long-topic behaviour. -/
theorem claim_C5_counterexample :
    (storeRun ⟨[]⟩ (.str (List.replicate 65 97)) (.bytes [7]) 5).2 = none ∧
    (storeRun ⟨[]⟩ (.str (List.replicate 65 97)) (.bytes [7]) 5).1 ≠ ⟨[]⟩ := by
  decide

/-- **C5 amended** — Topic validation.  `store` accepts every ASCII
topic of encoded length ≤ 64 bytes (64 included) when the payload is
`bytes` and the header fields fit.  A longer ASCII topic is *not*
rejected: `construct` 2.5.2 silently trims it to its first 64 bytes
and the message is appended to the buffer with the truncated topic.
Only a non-`bytes` payload (or non-`str` topic) raises — the source
raises `IOError`, which the specification calls `ValidationError` —
and that raise happens before any mutation, so the writer (hence
`buffer` and `dirty`) is returned unchanged. -/
theorem claim_C5_topic_validation :
    (∀ (w : BrokeWriter) (t p : List Nat) (now : Nat),
      t.length ≤ 64 → (∀ ch ∈ t, ch < 128) → p.length < 2 ^ 32 → now < 2 ^ 64 →
      (storeRun w (.str t) (.bytes p) now).2 = none) ∧
    (∀ (w : BrokeWriter) (t p : List Nat) (now : Nat),
      64 < t.length → (∀ ch ∈ t, ch < 128) → p.length < 2 ^ 32 → now < 2 ^ 64 →
      storeRun w (.str t) (.bytes p) now =
        (⟨w.buffer ++ messageHeaderBytes p.length now (t.take 64) ++ p⟩, none)) ∧
    (∀ (w : BrokeWriter) (tv pv : PyVal) (now : Nat), pv.isBytes = false →
      storeRun w tv pv now = (w, some .typeRejected)) := by
  refine ⟨?_, ?_, ?_⟩
  · intro w t p now ht64 hta hpl hts
    have htk : t.take 64 = t := List.take_of_length_le ht64
    have hbuild : messageHeaderBuild p.length now t =
        some (messageHeaderBytes p.length now t) := by
      unfold messageHeaderBuild
      rw [htk, if_pos ⟨hpl, hts, hta⟩]
    simp [storeRun, hbuild]
  · intro w t p now hlong hta hpl hts
    have hbuild : messageHeaderBuild p.length now t =
        some (messageHeaderBytes p.length now (t.take 64)) := by
      unfold messageHeaderBuild
      rw [if_pos ⟨hpl, hts, fun ch hch => hta ch (List.mem_of_mem_take hch)⟩]
    simp [storeRun, hbuild]
  · intro w tv pv now hpv
    cases pv with
    | bytes d => simp [PyVal.isBytes] at hpv
    | str cs => simp [storeRun]
    | other => simp [storeRun]

theorem claim_C5_witness :
    ((List.replicate 64 97).length ≤ 64 ∧
      (storeRun ⟨[]⟩ (.str (List.replicate 64 97)) (.bytes [7]) 5).2 = none) ∧
    (64 < (List.replicate 65 97).length ∧
      storeRun ⟨[1]⟩ (.str (List.replicate 65 97)) (.bytes [7]) 5 =
        (⟨[1] ++ messageHeaderBytes 1 5 ((List.replicate 65 97).take 64) ++ [7]⟩, none)) ∧
    storeRun ⟨[1]⟩ (.str [97]) .other 5 = (⟨[1]⟩, some .typeRejected) :=
  ⟨⟨by decide,
    claim_C5_topic_validation.1 ⟨[]⟩ (List.replicate 64 97) [7] 5 (by decide) (by decide)
      (by decide) (by decide)⟩,
   ⟨by decide,
    claim_C5_topic_validation.2.1 ⟨[1]⟩ (List.replicate 65 97) [7] 5 (by decide)
      (by decide) (by decide) (by decide)⟩,
   claim_C5_topic_validation.2.2 ⟨[1]⟩ (.str [97]) .other 5 (by decide)⟩

theorem commit_onWrite1_eq (c : Codec) (w : BrokeWriter) (file : List Nat) (tf : Bool)
    (hd : w.dirty = true) (hlen : (c.compress w.buffer).length < 2 ^ 32)
    (hchk : crc32 (c.compress w.buffer) < 2 ^ 32) :
    commit c w file (some .onWrite1) tf =
      commitRecover ⟨[]⟩ file file.length [.seekEnd] tf := by
  have hbuild : blockHeaderBuild (c.compress w.buffer).length
      (crc32 (c.compress w.buffer)) false =
      some (blockHeaderBytes (c.compress w.buffer).length
        (crc32 (c.compress w.buffer)) false) := by
    unfold blockHeaderBuild
    rw [if_pos ⟨hlen, hchk⟩]
  unfold commit
  rw [hd]
  simp only [Bool.true_eq_false, reduceIte, reduceCtorEq, Option.some.injEq, hbuild,
    rollback]

theorem commit_onWrite2_eq (c : Codec) (w : BrokeWriter) (file : List Nat) (tf : Bool)
    (hd : w.dirty = true) (hlen : (c.compress w.buffer).length < 2 ^ 32)
    (hchk : crc32 (c.compress w.buffer) < 2 ^ 32) :
    commit c w file (some .onWrite2) tf =
      commitRecover ⟨[]⟩
        (file ++ blockHeaderBytes (c.compress w.buffer).length
          (crc32 (c.compress w.buffer)) false)
        file.length
        [.seekEnd, .write (blockHeaderBytes (c.compress w.buffer).length
          (crc32 (c.compress w.buffer)) false)] tf := by
  have hbuild : blockHeaderBuild (c.compress w.buffer).length
      (crc32 (c.compress w.buffer)) false =
      some (blockHeaderBytes (c.compress w.buffer).length
        (crc32 (c.compress w.buffer)) false) := by
    unfold blockHeaderBuild
    rw [if_pos ⟨hlen, hchk⟩]
  unfold commit
  rw [hd]
  simp only [Bool.true_eq_false, reduceIte, reduceCtorEq, Option.some.injEq, hbuild,
    rollback]

theorem commit_onWrite3_eq (c : Codec) (w : BrokeWriter) (file : List Nat) (tf : Bool)
    (hd : w.dirty = true) (hlen : (c.compress w.buffer).length < 2 ^ 32)
    (hchk : crc32 (c.compress w.buffer) < 2 ^ 32) :
    commit c w file (some .onWrite3) tf =
      commitRecover ⟨[]⟩
        (file ++ blockHeaderBytes (c.compress w.buffer).length
          (crc32 (c.compress w.buffer)) false ++ c.compress w.buffer)
        file.length
        [.seekEnd, .write (blockHeaderBytes (c.compress w.buffer).length
          (crc32 (c.compress w.buffer)) false),
         .write (c.compress w.buffer), .seekTo file.length] tf := by
  have hbuild : blockHeaderBuild (c.compress w.buffer).length
      (crc32 (c.compress w.buffer)) false =
      some (blockHeaderBytes (c.compress w.buffer).length
        (crc32 (c.compress w.buffer)) false) := by
    unfold blockHeaderBuild
    rw [if_pos ⟨hlen, hchk⟩]
  unfold commit
  rw [hd]
  simp only [Bool.true_eq_false, reduceIte, reduceCtorEq, Option.some.injEq, hbuild,
    rollback]

theorem commit_onFlush_eq (c : Codec) (w : BrokeWriter) (file : List Nat) (tf : Bool)
    (hd : w.dirty = true) (hlen : (c.compress w.buffer).length < 2 ^ 32)
    (hchk : crc32 (c.compress w.buffer) < 2 ^ 32) :
    commit c w file (some .onFlush) tf =
      commitRecover ⟨[]⟩
        (file ++ blockHeaderBytes (c.compress w.buffer).length
          (crc32 (c.compress w.buffer)) true ++ c.compress w.buffer)
        file.length
        [.seekEnd, .write (blockHeaderBytes (c.compress w.buffer).length
          (crc32 (c.compress w.buffer)) false),
         .write (c.compress w.buffer), .seekTo file.length,
         .write (blockHeaderBytes (c.compress w.buffer).length
          (crc32 (c.compress w.buffer)) true)] tf := by
  have hbuild : blockHeaderBuild (c.compress w.buffer).length
      (crc32 (c.compress w.buffer)) false =
      some (blockHeaderBytes (c.compress w.buffer).length
        (crc32 (c.compress w.buffer)) false) := by
    unfold blockHeaderBuild
    rw [if_pos ⟨hlen, hchk⟩]
  unfold commit
  rw [hd]
  simp only [Bool.true_eq_false, reduceIte, reduceCtorEq, Option.some.injEq, hbuild,
    rollback]
  have htake : (file ++ (blockHeaderBytes (c.compress w.buffer).length
      (crc32 (c.compress w.buffer)) false ++ c.compress w.buffer)).take file.length
      = file := List.take_left' rfl
  have hdrop : (file ++ (blockHeaderBytes (c.compress w.buffer).length
      (crc32 (c.compress w.buffer)) false ++ c.compress w.buffer)).drop
      (file.length + 36) = c.compress w.buffer := by
    rw [← List.append_assoc]
    exact List.drop_left' (by simp [blockHeaderBytes_length])
  simp only [List.append_assoc] at htake hdrop ⊢
  rw [htake, hdrop]

/-- **C6** — Write-failure recovery: when any write step after
recording the end-of-file offset `start` raises (either payload
write, the header rewrite, or the final flush), commit re-raises the
original error; if the best-effort truncate succeeds the file is
restored exactly to its pre-commit contents, with the truncate to
`start` as the last file operation; if the truncate itself fails,
that is reported via `print` and the original error is still the one
propagated. -/
theorem claim_C6_write_failure_recovery (c : Codec) (w : BrokeWriter) (file : List Nat)
    (fault : CommitFault) (tf : Bool)
    (hd : w.dirty = true) (hlen : (c.compress w.buffer).length < 2 ^ 32)
    (hchk : crc32 (c.compress w.buffer) < 2 ^ 32)
    (hf : fault = .onWrite1 ∨ fault = .onWrite2 ∨ fault = .onWrite3 ∨ fault = .onFlush) :
    (commit c w file (some fault) tf).error = some .writeFailed ∧
    (tf = false → (commit c w file (some fault) tf).file = file ∧
      (commit c w file (some fault) tf).ops.getLast? = some (.truncate file.length)) ∧
    (tf = true → (commit c w file (some fault) tf).printed = ["Could not truncate file"] ∧
      (commit c w file (some fault) tf).error = some .writeFailed) := by
  rcases hf with rfl | rfl | rfl | rfl
  · rw [commit_onWrite1_eq c w file tf hd hlen hchk]
    unfold commitRecover
    cases tf
    · simp [List.take_length]
    · simp
  · rw [commit_onWrite2_eq c w file tf hd hlen hchk]
    unfold commitRecover
    cases tf
    · simp [List.take_left]
    · simp
  · rw [commit_onWrite3_eq c w file tf hd hlen hchk]
    unfold commitRecover
    cases tf
    · refine ⟨rfl, fun _ => ⟨?_, ?_⟩, fun h => by cases h⟩
      · simp only [reduceIte, List.append_assoc]
        exact List.take_left' rfl
      · simp
    · simp
  · rw [commit_onFlush_eq c w file tf hd hlen hchk]
    unfold commitRecover
    cases tf
    · refine ⟨rfl, fun _ => ⟨?_, ?_⟩, fun h => by cases h⟩
      · simp only [reduceIte, List.append_assoc]
        exact List.take_left' rfl
      · simp
    · simp

theorem claim_C6_witness :
    ((BrokeWriter.mk [1, 2]).dirty = true) ∧
    (commit idCodec ⟨[1, 2]⟩ [5, 6] (some .onWrite2) false).error =
      some .writeFailed ∧
    (commit idCodec ⟨[1, 2]⟩ [5, 6] (some .onWrite2) false).file = [5, 6] ∧
    (commit idCodec ⟨[1, 2]⟩ [5, 6] (some .onWrite2) false).ops.getLast? =
      some (.truncate 2) ∧
    (commit idCodec ⟨[1, 2]⟩ [5, 6] (some .onWrite2) true).printed =
      ["Could not truncate file"] ∧
    (commit idCodec ⟨[1, 2]⟩ [5, 6] (some .onWrite2) true).error = some .writeFailed := by
  have hfalse := claim_C6_write_failure_recovery idCodec ⟨[1, 2]⟩ [5, 6] .onWrite2 false
    (by decide) (by decide) (by decide) (by decide)
  have htrue := claim_C6_write_failure_recovery idCodec ⟨[1, 2]⟩ [5, 6] .onWrite2 true
    (by decide) (by decide) (by decide) (by decide)
  exact ⟨by decide, hfalse.1, (hfalse.2.1 rfl).1, (hfalse.2.1 rfl).2,
    (htrue.2.2 rfl).1, (htrue.2.2 rfl).2⟩

/-- A non-dirty `commit()` is a no-op: no file operations, no error,
writer and file untouched. -/
theorem commit_noop (c : Codec) (w : BrokeWriter) (file : List Nat)
    (hd : w.dirty = false) : commit c w file none false = ⟨w, file, [], none, []⟩ := by
  unfold commit
  rw [hd, if_pos rfl]

/-- Every commit leaves the writer's buffer empty: either it was
empty already, or the dirty path reset it via `rollback` before
touching the file. -/
theorem commit_writer_buffer (c : Codec) (w : BrokeWriter) (file : List Nat)
    (fault : Option CommitFault) (tf : Bool) :
    (commit c w file fault tf).writer.buffer = [] := by
  unfold commit
  by_cases hd : w.dirty = false
  · rw [if_pos hd]
    unfold BrokeWriter.dirty at hd
    simp at hd
    simpa [List.length_eq_zero] using hd
  · rw [if_neg hd]
    rcases hb : blockHeaderBuild (c.compress w.buffer).length
        (crc32 (c.compress w.buffer)) false with _ | hdrF
    · simp [hb, rollback]
    · simp only [hb, rollback]
      rcases fault with _ | f
      · simp [commitRecover]
      · cases f <;> cases tf <;> simp [commitRecover]

/-- **C7** — Commit idempotence: `commit()` on a non-dirty writer is
a complete no-op — zero file operations, file byte-for-byte
unchanged, no error, writer untouched (so `dirty` stays `false`); in
particular, since every commit leaves the buffer empty, a second
`commit()` with no intervening `store()` has no effect. -/
theorem claim_C7_commit_idempotence :
    (∀ (c : Codec) (w : BrokeWriter) (file : List Nat), w.dirty = false →
      commit c w file none false = ⟨w, file, [], none, []⟩) ∧
    (∀ (c : Codec) (w : BrokeWriter) (file file2 : List Nat) (fault : Option CommitFault)
      (tf : Bool),
      commit c (commit c w file fault tf).writer file2 none false =
        ⟨(commit c w file fault tf).writer, file2, [], none, []⟩) := by
  refine ⟨fun c w file hd => commit_noop c w file hd, ?_⟩
  intro c w file file2 fault tf
  apply commit_noop
  simp [BrokeWriter.dirty, commit_writer_buffer]

theorem claim_C7_witness :
    ((BrokeWriter.mk []).dirty = false ∧
      commit idCodec ⟨[]⟩ [3] none false = ⟨⟨[]⟩, [3], [], none, []⟩) ∧
    commit idCodec (commit idCodec ⟨[9]⟩ [] none false).writer [7] none false =
      ⟨(commit idCodec ⟨[9]⟩ [] none false).writer, [7], [], none, []⟩ :=
  ⟨⟨by decide, claim_C7_commit_idempotence.1 idCodec ⟨[]⟩ [3] (by decide)⟩,
   claim_C7_commit_idempotence.2 idCodec ⟨[9]⟩ [] [7] none false⟩

/-- **C10** — Buffer fate on a failed commit: the dirty path resets
the buffer (via `rollback`) before acquiring the lock or performing
any file operation, so after *every* commit — including one that
raises — the writer is no longer dirty and the buffered messages are
discarded; in particular a lock timeout raises with the file
untouched, no operations performed, and the buffer already reset. -/
theorem claim_C10_buffer_fate_on_failed_commit :
    (∀ (c : Codec) (w : BrokeWriter) (file : List Nat) (fault : Option CommitFault)
      (tf : Bool), (commit c w file fault tf).writer.dirty = false) ∧
    (∀ (c : Codec) (w : BrokeWriter) (file : List Nat) (tf : Bool),
      w.dirty = true → (c.compress w.buffer).length < 2 ^ 32 →
      crc32 (c.compress w.buffer) < 2 ^ 32 →
      commit c w file (some .onLock) tf = ⟨⟨[]⟩, file, [], some .lockTimeout, []⟩) := by
  constructor
  · intro c w file fault tf
    simp [BrokeWriter.dirty, commit_writer_buffer]
  · intro c w file tf hd hlen hchk
    have hbuild : blockHeaderBuild (c.compress w.buffer).length
        (crc32 (c.compress w.buffer)) false =
        some (blockHeaderBytes (c.compress w.buffer).length
          (crc32 (c.compress w.buffer)) false) := by
      unfold blockHeaderBuild
      rw [if_pos ⟨hlen, hchk⟩]
    unfold commit
    rw [hd]
    simp only [Bool.true_eq_false, reduceIte, reduceCtorEq, Option.some.injEq, hbuild,
      rollback]

theorem claim_C10_witness :
    ((BrokeWriter.mk [1]).dirty = true ∧
      commit idCodec ⟨[1]⟩ [4] (some .onLock) false =
        ⟨⟨[]⟩, [4], [], some .lockTimeout, []⟩) ∧
    (commit idCodec ⟨[1]⟩ [4] (some .onWrite2) false).writer.dirty = false :=
  ⟨⟨by decide, claim_C10_buffer_fate_on_failed_commit.2 idCodec ⟨[1]⟩ [4] false
      (by decide) (by decide) (by decide)⟩,
   claim_C10_buffer_fate_on_failed_commit.1 idCodec ⟨[1]⟩ [4] (some .onWrite2) false⟩

/-- **C1** — Round trip: storing any sequence of valid messages (an
ASCII topic of ≤ 64 encoded bytes, a `bytes` payload, fields fitting
their header slots) in order on a fresh writer, committing into an
empty file, and scanning that file yields exactly those messages in
insertion order, each with its original payload bytes and timestamp
and its topic trimmed of trailing null padding.  The side condition
bounds the compressed block length to its 32-bit header field, which
`construct` would otherwise reject at build time. -/
theorem claim_C1_roundtrip (c : Codec) (msgs : List (List Nat × Nat × List Nat))
    (h : ∀ m ∈ msgs, ValidMsg m)
    (hlen : (c.compress (framesOf msgs)).length < 2 ^ 32) :
    readMessages c (commit c (storeAll ⟨[]⟩ msgs).1 [] none false).file =
      (msgs.map (fun m => ⟨rstripNulls m.1, m.2.1, m.2.2⟩), none) :=
  readMessages_roundtrip c msgs h hlen

set_option maxRecDepth 100000 in
theorem claim_C1_witness :
    (∀ m ∈ [([97], 5, [120]), ([98], 6, [121])], ValidMsg m) ∧
    readMessages idCodec (commit idCodec
        (storeAll ⟨[]⟩ [([97], 5, [120]), ([98], 6, [121])]).1 [] none false).file =
      ([⟨[97], 5, [120]⟩, ⟨[98], 6, [121]⟩], none) := by
  refine ⟨by decide, ?_⟩
  rw [claim_C1_roundtrip idCodec [([97], 5, [120]), ([98], 6, [121])] (by decide) (by decide)]
  decide

set_option maxRecDepth 100000 in
/-- **C8 counterexample** — timestamps are captured at `store` time
(`int(time.time() * 1000)` inside `store`), and `commit` never reads
the clock.  In a run where the clock reads 100 ms during the `store`
call and the later `commit` call's wall-clock window is
[200 ms, 300 ms], the scanned message carries timestamp 100, which
does not lie within the commit call's window — refuting the claim as
stated. -/
theorem claim_C8_counterexample :
    (readMessages idCodec (commit idCodec
        (storeAll ⟨[]⟩ [([97], 100, [120])]).1 [] none false).file).1 =
      [⟨[97], 100, [120]⟩] ∧
    ¬ (200 ≤ (100 : Nat) ∧ (100 : Nat) ≤ 300) := by
  constructor
  · rw [readMessages_roundtrip idCodec [([97], 100, [120])] (by decide) (by decide)]
    decide
  · decide

/-- **C8 amended** — Message timestamps: every yielded message's
timestamp equals the clock value captured during its `store` call
(which precedes the commit), not a value from the commit call's
window. -/
theorem claim_C8_store_time_timestamps (c : Codec)
    (msgs : List (List Nat × Nat × List Nat)) (h : ∀ m ∈ msgs, ValidMsg m)
    (hlen : (c.compress (framesOf msgs)).length < 2 ^ 32) :
    (readMessages c (commit c (storeAll ⟨[]⟩ msgs).1 [] none false).file).1.map
        Message.time = msgs.map (fun m => m.2.1) := by
  rw [readMessages_roundtrip c msgs h hlen]
  simp

set_option maxRecDepth 100000 in
theorem claim_C8_witness :
    (∀ m ∈ [([97], 100, [120])], ValidMsg m) ∧
    (readMessages idCodec (commit idCodec
        (storeAll ⟨[]⟩ [([97], 100, [120])]).1 [] none false).file).1.map
        Message.time = [100] :=
  ⟨by decide,
   claim_C8_store_time_timestamps idCodec [([97], 100, [120])] (by decide) (by decide)⟩

/-- The block a commit of `batch` appends to the file. -/
def commitBlock (c : Codec) (batch : List (List Nat × Nat × List Nat)) : Block :=
  ⟨true, crc32 (c.compress (framesOf batch)), c.compress (framesOf batch)⟩

theorem framesOf_ne_nil (batch : List (List Nat × Nat × List Nat))
    (h : batch ≠ []) : framesOf batch ≠ [] := by
  cases batch with
  | nil => exact absurd rfl h
  | cons m rest =>
    obtain ⟨t, now, p⟩ := m
    exact framesOf_cons_ne_nil t now p rest

/-- Decoding the single block a commit produced yields exactly its
batch of messages. -/
theorem decode_commitBlock (c : Codec) (batch : List (List Nat × Nat × List Nat))
    (hv : ∀ m ∈ batch, ValidMsg m) (hne : batch ≠ []) :
    decodeBlocks c (committedPayloads [commitBlock c batch]) none =
      (batch.map (fun m => ⟨rstripNulls m.1, m.2.1, m.2.2⟩), none) := by
  have hcne : c.compress (framesOf batch) ≠ [] :=
    c.compress_ne_nil _ (framesOf_ne_nil batch hne)
  have hie : (c.compress (framesOf batch)).isEmpty = false := by
    cases hx : c.compress (framesOf batch)
    · exact absurd hx hcne
    · rfl
  have hcp : committedPayloads [commitBlock c batch] = [c.compress (framesOf batch)] := by
    simp [committedPayloads, commitBlock, List.filter, hie]
  have hdb : decodeBlock c (c.compress (framesOf batch)) =
      (batch.map (fun m => ⟨rstripNulls m.1, m.2.1, m.2.2⟩), none) := by
    rw [decodeBlock, c.decompress_compress]
    exact iterMessages_frames batch hv
  rw [hcp, decodeBlocks]
  split
  · rename_i ms e heq
    rw [hdb] at heq
    simp at heq
  · rename_i ms heq
    rw [hdb] at heq
    rw [decodeBlocks]
    simp only [Prod.mk.injEq] at heq
    simp [heq.1]

/-- **C9** — Follow-mode uniqueness.  First part: each commit of a
batch appends exactly one serialized block to the end of the file.
Second part: a follower observing the resulting chain of files (one
new block-delta visible per wake-up) resumes each drain from its
previous position, and its per-cycle yields are exactly the batches
in commit order — every committed message is yielded exactly once,
in the cycle during which its block appeared, and no message is ever
re-yielded by a later cycle. -/
theorem claim_C9_follow_uniqueness (c : Codec)
    (batches : List (List (List Nat × Nat × List Nat)))
    (h : ∀ batch ∈ batches, (∀ m ∈ batch, ValidMsg m) ∧ batch ≠ [] ∧
      (c.compress (framesOf batch)).length < 2 ^ 32) :
    (∀ batch ∈ batches, ∀ file : List Nat,
      (commit c ⟨framesOf batch⟩ file none false).file =
        file ++ serializeBlocks [commitBlock c batch]) ∧
    readMessagesFollow c (cumFilesFrom [] (batches.map (fun b => [commitBlock c b]))) =
      (batches.map (fun batch => batch.map (fun m => ⟨rstripNulls m.1, m.2.1, m.2.2⟩)),
       none) := by
  constructor
  · intro batch hb file
    obtain ⟨hv, hne, hlen⟩ := h batch hb
    have hfne : framesOf batch ≠ [] := framesOf_ne_nil batch hne
    have hdirty : (BrokeWriter.mk (framesOf batch)).dirty = true := by
      simp [BrokeWriter.dirty, List.length_pos, hfne]
    have hchk : crc32 (c.compress (framesOf batch)) < 2 ^ 32 :=
      crc32_lt (c.compress_bytes _ (framesOf_bytes batch hv))
    rw [commit_clean c ⟨framesOf batch⟩ file false hdirty hlen hchk]
    simp [serializeBlocks, serializeBlock, commitBlock, List.append_assoc]
  · have hok : ∀ d ∈ batches.map (fun b => [commitBlock c b]),
        (∀ bl ∈ d, BlockOk bl) ∧
        (decodeBlocks c (committedPayloads d) none).2 = none := by
      intro d hd
      obtain ⟨batch, hb, rfl⟩ := List.mem_map.mp hd
      obtain ⟨hv, hne, hlen⟩ := h batch hb
      have hchk : crc32 (c.compress (framesOf batch)) < 2 ^ 32 :=
        crc32_lt (c.compress_bytes _ (framesOf_bytes batch hv))
      refine ⟨?_, ?_⟩
      · intro bl hbl
        rw [List.mem_singleton.mp hbl]
        exact ⟨hlen, hchk, fun _ _ => rfl⟩
      · rw [decode_commitBlock c batch hv hne]
    rw [readMessagesFollow]
    have hrun := followGo_cumFiles c (batches.map (fun b => [commitBlock c b])) [] hok
    simp only [List.length_nil] at hrun
    rw [hrun, List.map_map]
    congr 1
    apply List.map_congr_left
    intro batch hb
    obtain ⟨hv, hne, _⟩ := h batch hb
    simp only [Function.comp_apply]
    rw [decode_commitBlock c batch hv hne]

set_option maxRecDepth 100000 in
theorem claim_C9_witness :
    (∀ batch ∈ [[([97], 5, [120])], [([98], 6, [121])]],
      (∀ m ∈ batch, ValidMsg m) ∧ batch ≠ [] ∧
      (idCodec.compress (framesOf batch)).length < 2 ^ 32) ∧
    readMessagesFollow idCodec
        (cumFilesFrom [] (([[([97], 5, [120])], [([98], 6, [121])]].map
          (fun b => [commitBlock idCodec b])))) =
      ([[⟨[97], 5, [120]⟩], [⟨[98], 6, [121]⟩]], none) := by
  refine ⟨by decide, ?_⟩
  rw [(claim_C9_follow_uniqueness idCodec [[([97], 5, [120])], [([98], 6, [121])]]
    (by decide)).2]
  decide
